import Mathlib

/-!
Verification of the transducer / labeled-graph core of `tulip-control`
(`tulip/transys/machines.py`, `tulip/transys/labeled_graphs.py`,
`tulip/transys/automata.py`, `tulip/transys/games.py`, `tulip/synth.py`)
against its natural-language specification.

The Python code is shallowly embedded: Python dicts become association
lists compared extensionally (Python `dict.__eq__` compares key sets and
the values at each key, ignoring insertion order), fallible code returns
`Except String`, and `raise` becomes `Except.error`.
-/

namespace Tulip

/-- A Python scalar value as it occurs in machine labels and graph nodes:
an integer or a string.  (Booleans are encoded as the integers 0/1 by the
synthesis pipeline, see `machines.create_machine_ports`.) -/
inductive PyV where
  | i (n : Int)
  | s (t : String)
deriving DecidableEq, Repr

/-- A Python `dict` with string keys, embedded as an association list.
Lookup takes the first matching entry. -/
abbrev Dict := List (String × PyV)

/-- `d[k]` as an `Option`: first entry with key `k`. -/
def dlookup : Dict → String → Option PyV
  | [], _ => none
  | p :: t, k => if p.1 = k then some p.2 else dlookup t k

/-- The key list of a dict. -/
def dkeys (d : Dict) : List String := d.map Prod.fst

/-- Python `d[k]`: raises `KeyError` when the key is absent. -/
def pyGet (d : Dict) (k : String) : Except String PyV :=
  match dlookup d k with
  | some v => Except.ok v
  | none => Except.error "KeyError"

/-- `machines.project_dict`: `{k: x[k] for k in x if k in y}` —
restrict dict `x` to the keys listed in `y`. -/
def project_dict (x : Dict) (y : List String) : Dict :=
  x.filter (fun p => y.contains p.1)

/-- Python dict equality: same key sets, and the same value at every key
(insertion order is irrelevant). -/
def pyDictEq (a b : Dict) : Bool :=
  (dkeys a).all (fun k => (dkeys b).contains k) &&
  (dkeys b).all (fun k => (dkeys a).contains k) &&
  (dkeys a).all (fun k => decide (dlookup a k = dlookup b k))

/-- Python `q.update(r)`: every key of `r` now maps to the `r` value,
other keys of `q` are unchanged.  (Represented so that `dlookup` agrees
with Python; insertion order is never observed through `dlookup` /
`pyDictEq`.) -/
def dictUpdate (q r : Dict) : Dict :=
  q.filter (fun p => ¬ (dkeys r).contains p.1) ++ r

/-- A labeled edge of a machine graph: source node, destination node,
`networkx` multi-edge key, and the attribute dict (the edge label). -/
structure MEdge where
  src : String
  dst : String
  key : Nat
  label : Dict
deriving DecidableEq, Repr

/-- A Mealy machine (`machines.MealyMachine`): input and output ports
(name and domain), nodes, initial nodes, labeled edges. -/
structure MealyM where
  inputs : List (String × List PyV)
  outputs : List (String × List PyV)
  nodes : List String
  initial : List String
  edges : List MEdge
deriving DecidableEq, Repr

/-- A fresh `MealyMachine()`: everything empty. -/
def MealyM.empty : MealyM :=
  { inputs := [], outputs := [], nodes := [], initial := [], edges := [] }

/-- Input port names of a machine. -/
def MealyM.inPorts (m : MealyM) : List String := m.inputs.map Prod.fst

/-- Output port names of a machine. -/
def MealyM.outPorts (m : MealyM) : List String := m.outputs.map Prod.fst

/-- The transitions enabled at `from_state` under input valuation
`ival`: outgoing edges whose label, projected onto the input ports,
equals (`dict ==`) the given valuation.  This is the list comprehension
`enabled_trans` in `MealyMachine.reaction`. -/
def matchingTrans (m : MealyM) (from_state : String) (ival : Dict) : List MEdge :=
  m.edges.filter
    (fun e => from_state = e.src && pyDictEq (project_dict e.label m.inPorts) ival)

/-- `MealyMachine.reaction`: if exactly one transition is enabled return
`(next_state, outputs)`, where `outputs` is the edge label projected on
the output ports; otherwise the tuple unpacking fails and the method
raises (the machine must be input-deterministic). -/
def reaction (m : MealyM) (from_state : String) (ival : Dict) :
    Except String (String × Dict) :=
  match matchingTrans m from_state ival with
  | [e] => Except.ok (e.dst, project_dict e.label m.outPorts)
  | _ => Except.error "must be input-deterministic, found enabled transitions"

/-- Elements of `matchingTrans` are exactly the outgoing edges of
`from_state` whose input projection equals the valuation. -/
theorem mem_matchingTrans {m : MealyM} {s : String} {ival : Dict} {e : MEdge} :
    e ∈ matchingTrans m s ival ↔
      e ∈ m.edges ∧ e.src = s ∧
        pyDictEq (project_dict e.label m.inPorts) ival = true := by
  simp only [matchingTrans, List.mem_filter, Bool.and_eq_true, decide_eq_true_eq]
  constructor
  · rintro ⟨h1, h2, h3⟩
    exact ⟨h1, h2.symm, h3⟩
  · rintro ⟨h1, h2, h3⟩
    exact ⟨h1, h2.symm, h3⟩

/-- A duplicate-free list whose elements all equal `e`, and which
contains `e`, is the singleton `[e]`. -/
theorem nodup_all_eq_singleton {α : Type} {l : List α} {e : α}
    (hnd : l.Nodup) (hmem : e ∈ l) (hall : ∀ x ∈ l, x = e) : l = [e] := by
  cases l with
  | nil => cases hmem
  | cons a t =>
    have ha : a = e := hall a (List.mem_cons_self a t)
    subst ha
    cases t with
    | nil => rfl
    | cons b t' =>
      have hb : b = a := hall b (by simp)
      exact absurd (hb ▸ List.mem_cons_self b t' : a ∈ b :: t')
        (by simpa [hb] using (List.nodup_cons.mp hnd).1)

/-- If a filter yields the singleton `[e]` then `e` satisfies the
predicate, belongs to the list, and is the only member doing so. -/
theorem filter_eq_singleton_unique {α : Type} {l : List α} {p : α → Bool} {e : α}
    (h : l.filter p = [e]) :
    e ∈ l ∧ p e = true ∧ ∀ x ∈ l, p x = true → x = e := by
  have he : e ∈ l.filter p := by rw [h]; exact List.mem_singleton_self e
  have := List.mem_filter.mp he
  refine ⟨this.1, this.2, ?_⟩
  intro x hx hpx
  have : x ∈ l.filter p := List.mem_filter.mpr ⟨hx, hpx⟩
  rw [h] at this
  exact List.mem_singleton.mp this

/-- On a duplicate-free list, a filter whose predicate holds for `e` and
for no other member yields exactly `[e]`. -/
theorem filter_eq_singleton_of_unique {α : Type} {l : List α} {p : α → Bool} {e : α}
    (hnd : l.Nodup) (hmem : e ∈ l) (hpe : p e = true)
    (huniq : ∀ x ∈ l, p x = true → x = e) : l.filter p = [e] := by
  apply nodup_all_eq_singleton (List.Nodup.filter p hnd)
  · exact List.mem_filter.mpr ⟨hmem, hpe⟩
  · intro x hx
    have := List.mem_filter.mp hx
    exact huniq x this.1 this.2

/-- C2. `MealyMachine.reaction` at a state and a (complete) input
valuation: it returns `(next state, output valuation)` exactly when the
machine has a unique outgoing edge whose input-port projection equals
the valuation — the next state and outputs are the ones of that edge —
and it raises (returns an error, never picking arbitrarily) whenever
zero or at least two outgoing edges match. -/
theorem reaction_unique_edge (m : MealyM) (s : String) (ival : Dict)
    (hnd : m.edges.Nodup) :
    (∀ nxt out, reaction m s ival = Except.ok (nxt, out) ↔
      ∃ e, e ∈ m.edges ∧ e.src = s ∧
        pyDictEq (project_dict e.label m.inPorts) ival = true ∧
        (∀ e2, e2 ∈ m.edges → e2.src = s →
          pyDictEq (project_dict e2.label m.inPorts) ival = true → e2 = e) ∧
        nxt = e.dst ∧ out = project_dict e.label m.outPorts) ∧
    ((¬ ∃ e, e ∈ m.edges ∧ e.src = s ∧
        pyDictEq (project_dict e.label m.inPorts) ival = true ∧
        (∀ e2, e2 ∈ m.edges → e2.src = s →
          pyDictEq (project_dict e2.label m.inPorts) ival = true → e2 = e)) →
      ∃ msg, reaction m s ival = Except.error msg) := by
  have hchar : ∀ e : MEdge, matchingTrans m s ival = [e] ↔
      (e ∈ m.edges ∧ e.src = s ∧
        pyDictEq (project_dict e.label m.inPorts) ival = true ∧
        (∀ e2, e2 ∈ m.edges → e2.src = s →
          pyDictEq (project_dict e2.label m.inPorts) ival = true → e2 = e)) := by
    intro e
    constructor
    · intro h
      obtain ⟨h1, h2, h3⟩ := filter_eq_singleton_unique h
      obtain ⟨hm, hs, hp⟩ := mem_matchingTrans.mp (by rw [h]; exact List.mem_singleton_self e)
      refine ⟨hm, hs, hp, ?_⟩
      intro e2 he2 hs2 hp2
      exact h3 e2 he2 (by simp [hs2, hp2])
    · rintro ⟨hm, hs, hp, hu⟩
      apply filter_eq_singleton_of_unique hnd hm (by simp [hs, hp])
      intro x hx hpx
      simp only [Bool.and_eq_true, decide_eq_true_eq] at hpx
      exact hu x hx hpx.1.symm hpx.2
  constructor
  · intro nxt out
    constructor
    · intro h
      unfold reaction at h
      rcases hlist : matchingTrans m s ival with _ | ⟨e, _ | ⟨e2, t⟩⟩
      · rw [hlist] at h; cases h
      · rw [hlist] at h
        obtain ⟨hm, hs, hp, hu⟩ := (hchar e).mp hlist
        exact ⟨e, hm, hs, hp, hu,
          by simpa using (congrArg Prod.fst (Except.ok.inj h)).symm,
          by simpa using (congrArg Prod.snd (Except.ok.inj h)).symm⟩
      · rw [hlist] at h; cases h
    · rintro ⟨e, hm, hs, hp, hu, hnxt, hout⟩
      have : matchingTrans m s ival = [e] := (hchar e).mpr ⟨hm, hs, hp, hu⟩
      unfold reaction
      rw [this, hnxt, hout]
  · intro hno
    unfold reaction
    rcases hlist : matchingTrans m s ival with _ | ⟨e, _ | ⟨e2, t⟩⟩
    · exact ⟨_, rfl⟩
    · exact absurd ⟨e, (hchar e).mp hlist⟩ hno
    · exact ⟨_, rfl⟩

/-- Concrete machine used by witnesses: two nodes, one input port `x`,
one output port `y`, a single edge `a --x=0/y=1--> b`. -/
def mealyW : MealyM :=
  { inputs := [("x", [PyV.i 0, PyV.i 1])],
    outputs := [("y", [PyV.i 0, PyV.i 1])],
    nodes := ["a", "b"],
    initial := ["a"],
    edges := [⟨"a", "b", 0, [("x", PyV.i 0), ("y", PyV.i 1)]⟩] }

/-- Witness for C2: on the concrete machine `mealyW`, the reaction from
`a` to input `x = 0` is the edge to `b` with output `y = 1`. -/
theorem reaction_unique_edge_witness :
    reaction mealyW "a" [("x", PyV.i 0)] =
      Except.ok ("b", [("y", PyV.i 1)]) := by
  exact ((reaction_unique_edge mealyW "a" [("x", PyV.i 0)] (by decide)).1
    "b" [("y", PyV.i 1)]).mpr
    ⟨⟨"a", "b", 0, [("x", PyV.i 0), ("y", PyV.i 1)]⟩,
      by decide, by decide, by decide, by decide, by decide, by decide⟩

/-- The `networkx` identity of a multigraph edge: `(source, target, key)`. -/
def MEdge.triple (e : MEdge) : String × String × Nat := (e.src, e.dst, e.key)

/-- `remove_edges_from`: drop every edge whose `(src, dst, key)` triple
is in the removal set. -/
def removeEdges (m : MealyM) (rm : List (String × String × Nat)) : MealyM :=
  { m with edges := m.edges.filter (fun e => !(rm.contains e.triple)) }

/-- The outgoing edges of the synthetic initial node,
`mach.edges_iter(['Sinit'], data=True, keys=True)`. -/
def sinitEdges (m : MealyM) : List MEdge :=
  m.edges.filter (fun e => e.src == "Sinit")

/-- `determinize_machine_init`: the "given" ports,
`tuple(k for k in mach.outputs if k in init_out_values)`. -/
def givenPorts (m : MealyM) (iov : Dict) : List String :=
  m.outPorts.filter (fun k => (dkeys iov).contains k)

/-- First-pass body of `determinize_machine_init`: scan the given ports
in order and report whether the edge label disagrees with
`init_out_values` on one of them (`if d[k] != init_out_values[k]`,
with `break` at the first disagreement). -/
def disagreesOnGiven (given : List String) (iov : Dict) (d : Dict) :
    Except String Bool :=
  match given with
  | [] => Except.ok false
  | k :: rest => do
      let v ← pyGet d k
      let w ← pyGet iov k
      if v ≠ w then Except.ok true else disagreesOnGiven rest iov d

/-- First pass of `determinize_machine_init`: collect (as `(i, j, key)`
triples) the `Sinit`-outgoing edges whose label disagrees with
`init_out_values` on some given port. -/
def pass1rm (given : List String) (iov : Dict) (es : List MEdge) :
    Except String (List (String × String × Nat)) :=
  match es with
  | [] => Except.ok []
  | e :: rest => do
      let b ← disagreesOnGiven given iov e.label
      let rm ← pass1rm given iov rest
      pure (if b then e.triple :: rm else rm)

/-- `tuple(d[k] for k in ks)`: the values of `d` at the listed keys, in
order; `KeyError` when one is absent. -/
def getVals (d : Dict) : List String → Except String (List PyV)
  | [] => Except.ok []
  | k :: rest => do
      let v ← pyGet d k
      let vs ← getVals d rest
      pure (v :: vs)

/-- Second pass of `determinize_machine_init`: walk the `Sinit`-outgoing
edges in order, remember each newly seen input valuation tuple
(`in_values = tuple(d[k] for k in inputs)`) in `possible_inputs`, and
collect for removal every edge whose input valuation was already seen. -/
def pass2rm (inputs : List String) (possible : List (List PyV)) (es : List MEdge) :
    Except String (List (String × String × Nat)) :=
  match es with
  | [] => Except.ok []
  | e :: rest => do
      let vals ← getVals e.label inputs
      if possible.contains vals then
        let rm ← pass2rm inputs possible rest
        pure (e.triple :: rm)
      else
        pass2rm inputs (vals :: possible) rest

/-- `synth.determinize_machine_init`: deep-copy the machine (the
embedding is pure, so the argument is untouched), remove the
`Sinit`-outgoing edges that disagree with the given initial output
values, then keep only the first `Sinit`-outgoing edge for each distinct
input valuation. -/
def determinize_machine_init (m : MealyM) (iov : Dict) : Except String MealyM := do
  let rm1 ← pass1rm (givenPorts m iov) iov (sinitEdges m)
  let m1 := removeEdges m rm1
  let rm2 ← pass2rm m1.inPorts [] (sinitEdges m1)
  pure (removeEdges m1 rm2)

/-- A key absent from the key list has no lookup value. -/
theorem dlookup_eq_none_of_not_mem {d : Dict} {k : String}
    (h : ¬ (dkeys d).contains k) : dlookup d k = none := by
  induction d with
  | nil => rfl
  | cons p t ih =>
    simp only [dkeys, List.map_cons, List.contains_iff_exists_mem_beq] at h ih
    push_neg at h
    have h1 : p.1 ≠ k := by
      intro hk
      exact absurd (by simp [hk]) (h p.1 (by simp))
    simp only [dlookup, if_neg h1]
    exact ih (by
      rintro ⟨x, hx, hbeq⟩
      exact absurd hbeq (h x (by simp [hx])))

/-- Python dict equality implies equal lookups at every key. -/
theorem pyDictEq_lookup {a b : Dict} (h : pyDictEq a b = true) :
    ∀ k, dlookup a k = dlookup b k := by
  intro k
  simp only [pyDictEq, Bool.and_eq_true, List.all_eq_true] at h
  obtain ⟨⟨hab, hba⟩, hval⟩ := h
  by_cases hk : (dkeys a).contains k
  · exact of_decide_eq_true (hval k (by simpa using hk))
  · have hkb : ¬ (dkeys b).contains k := by
      intro hkb
      exact hk (hba k (by simpa using hkb))
    rw [dlookup_eq_none_of_not_mem hk, dlookup_eq_none_of_not_mem hkb]

/-- Lookup in a projected dict: the lookup of the original when the key
is kept, `none` otherwise. -/
theorem dlookup_project (d : Dict) (ks : List String) (k : String) :
    dlookup (project_dict d ks) k = if k ∈ ks then dlookup d k else none := by
  induction d with
  | nil => simp [project_dict, dlookup]
  | cons p t ih =>
    have hstep : project_dict (p :: t) ks =
        if p.1 ∈ ks then p :: project_dict t ks else project_dict t ks := by
      simp [project_dict, List.filter_cons, List.elem_eq_mem]
    rw [hstep]
    by_cases hm : p.1 ∈ ks
    · rw [if_pos hm]
      by_cases hpk : p.1 = k
      · subst hpk
        simp [dlookup, hm]
      · simp only [dlookup, if_neg hpk]
        exact ih
    · rw [if_neg hm]
      by_cases hpk : p.1 = k
      · subst hpk
        rw [ih, if_neg hm, if_neg hm]
      · simp only [dlookup, if_neg hpk]
        exact ih

/-- `pyGet` succeeds exactly on present keys, with the lookup value. -/
theorem pyGet_ok_iff {d : Dict} {k : String} {v : PyV} :
    pyGet d k = Except.ok v ↔ dlookup d k = some v := by
  unfold pyGet
  cases h : dlookup d k <;> simp

/-- A disagreement check that returns `false` certifies agreement with
`init_out_values` on every given port. -/
theorem disagrees_false_agrees {given : List String} {iov d : Dict}
    (h : disagreesOnGiven given iov d = Except.ok false) :
    ∀ k ∈ given, dlookup d k = dlookup iov k := by
  induction given with
  | nil => intro k hk; cases hk
  | cons g rest ih =>
    intro k hk
    unfold disagreesOnGiven at h
    rcases hd : pyGet d g with msg | v <;> rw [hd] at h <;>
      simp only [bind, Except.bind] at h
    · cases h
    rcases hi : pyGet iov g with msg | w <;> rw [hi] at h <;>
      simp only [bind, Except.bind] at h
    · cases h
    by_cases hvw : v = w
    · rw [if_neg (by simpa using hvw)] at h
      rcases List.mem_cons.mp hk with hkg | hkr
      · subst hkg
        rw [pyGet_ok_iff.mp hd, pyGet_ok_iff.mp hi, hvw]
      · exact ih h k hkr
    · rw [if_pos (by simpa using hvw)] at h
      cases h

/-- Every `Sinit`-edge that the first pass leaves in place agrees with
the given initial output values. -/
theorem pass1_ok_mem {given : List String} {iov : Dict} {es : List MEdge}
    {rm : List (String × String × Nat)}
    (h : pass1rm given iov es = Except.ok rm) :
    ∀ e ∈ es, e.triple ∉ rm →
      disagreesOnGiven given iov e.label = Except.ok false := by
  induction es generalizing rm with
  | nil => intro e he; cases he
  | cons e rest ih =>
    intro x hx hnot
    unfold pass1rm at h
    rcases hb : disagreesOnGiven given iov e.label with msg | b <;> rw [hb] at h <;>
      simp only [bind, Except.bind] at h
    · cases h
    rcases hr : pass1rm given iov rest with msg | rm2 <;> rw [hr] at h <;>
      simp only [bind, Except.bind] at h
    · cases h
    simp only [pure, Except.pure, Except.ok.injEq] at h
    rcases List.mem_cons.mp hx with hxe | hxr
    · subst hxe
      cases b with
      | false => exact hb
      | true =>
        rw [← h] at hnot
        simp only [if_pos rfl] at hnot
        exact absurd (List.mem_cons_self _ _) hnot
    · cases b with
      | false =>
        rw [← h] at hnot
        simp only [Bool.false_eq_true, if_neg] at hnot
        exact ih hr x hxr (by simpa using hnot)
      | true =>
        rw [← h] at hnot
        simp only [if_pos rfl] at hnot
        exact ih hr x hxr (fun hmem => hnot (List.mem_cons_of_mem _ hmem))

/-- Every triple collected by the first pass is the triple of a listed
edge. -/
theorem pass1_triples {given : List String} {iov : Dict} {es : List MEdge}
    {rm : List (String × String × Nat)}
    (h : pass1rm given iov es = Except.ok rm) :
    ∀ t ∈ rm, ∃ e ∈ es, t = e.triple := by
  induction es generalizing rm with
  | nil =>
    unfold pass1rm at h
    simp only [Except.ok.injEq] at h
    intro t ht
    rw [← h] at ht
    cases ht
  | cons e rest ih =>
    intro t ht
    unfold pass1rm at h
    rcases hb : disagreesOnGiven given iov e.label with msg | b <;> rw [hb] at h <;>
      simp only [bind, Except.bind] at h
    · cases h
    rcases hr : pass1rm given iov rest with msg | rm2 <;> rw [hr] at h <;>
      simp only [bind, Except.bind] at h
    · cases h
    simp only [pure, Except.pure, Except.ok.injEq] at h
    cases b with
    | false =>
      rw [← h] at ht
      simp only [Bool.false_eq_true, if_neg] at ht
      obtain ⟨e2, he2, ht2⟩ := ih hr t (by simpa using ht)
      exact ⟨e2, List.mem_cons_of_mem _ he2, ht2⟩
    | true =>
      rw [← h] at ht
      simp only [if_pos rfl] at ht
      rcases List.mem_cons.mp ht with hte | htr
      · exact ⟨e, List.mem_cons_self _ _, hte⟩
      · obtain ⟨e2, he2, ht2⟩ := ih hr t htr
        exact ⟨e2, List.mem_cons_of_mem _ he2, ht2⟩

/-- Every triple collected by the second pass is the triple of a listed
edge. -/
theorem pass2_triples {inputs : List String} {possible : List (List PyV)}
    {es : List MEdge} {rm : List (String × String × Nat)}
    (h : pass2rm inputs possible es = Except.ok rm) :
    ∀ t ∈ rm, ∃ e ∈ es, t = e.triple := by
  induction es generalizing possible rm with
  | nil =>
    unfold pass2rm at h
    simp only [Except.ok.injEq] at h
    intro t ht
    rw [← h] at ht
    cases ht
  | cons e rest ih =>
    intro t ht
    unfold pass2rm at h
    rcases hv : getVals e.label inputs with msg | vals <;> rw [hv] at h <;>
      simp only [bind, Except.bind] at h
    · cases h
    by_cases hc : possible.contains vals = true
    · rw [if_pos hc] at h
      rcases hr : pass2rm inputs possible rest with msg | rm2 <;> rw [hr] at h <;>
        simp only [bind, Except.bind] at h
      · cases h
      simp only [pure, Except.pure, Except.ok.injEq] at h
      rw [← h] at ht
      rcases List.mem_cons.mp ht with hte | htr
      · exact ⟨e, List.mem_cons_self _ _, hte⟩
      · obtain ⟨e2, he2, ht2⟩ := ih hr t htr
        exact ⟨e2, List.mem_cons_of_mem _ he2, ht2⟩
    · rw [if_neg hc] at h
      obtain ⟨e2, he2, ht2⟩ := ih h t ht
      exact ⟨e2, List.mem_cons_of_mem _ he2, ht2⟩

/-- Soundness of the second pass: each surviving edge has a readable
input valuation not seen before, and two surviving edges with the same
input valuation are the same edge. -/
theorem pass2_ok_sound {inputs : List String} {possible : List (List PyV)}
    {es : List MEdge} {rm : List (String × String × Nat)}
    (h : pass2rm inputs possible es = Except.ok rm) :
    (∀ e ∈ es, e.triple ∉ rm →
      ∃ vals, getVals e.label inputs = Except.ok vals ∧ vals ∉ possible) ∧
    (∀ e1 ∈ es, ∀ e2 ∈ es, e1.triple ∉ rm → e2.triple ∉ rm →
      ∀ v1 v2, getVals e1.label inputs = Except.ok v1 →
        getVals e2.label inputs = Except.ok v2 → v1 = v2 → e1 = e2) := by
  induction es generalizing possible rm with
  | nil => exact ⟨fun e he => absurd he (List.not_mem_nil e),
      fun e1 he1 => absurd he1 (List.not_mem_nil e1)⟩
  | cons e rest ih =>
    unfold pass2rm at h
    rcases hv : getVals e.label inputs with msg | vals <;> rw [hv] at h <;>
      simp only [bind, Except.bind] at h
    · cases h
    by_cases hc : possible.contains vals = true
    · rw [if_pos hc] at h
      rcases hr : pass2rm inputs possible rest with msg | rm2 <;> rw [hr] at h <;>
        simp only [bind, Except.bind] at h
      · cases h
      simp only [pure, Except.pure, Except.ok.injEq] at h
      subst h
      obtain ⟨iha, ihb⟩ := ih hr
      constructor
      · intro x hx hnot
        rcases List.mem_cons.mp hx with hxe | hxr
        · subst hxe
          exact absurd (List.mem_cons_self _ _) hnot
        · exact iha x hxr (fun hm => hnot (List.mem_cons_of_mem _ hm))
      · intro x1 hx1 x2 hx2 hn1 hn2 v1 v2 hv1 hv2 hveq
        rcases List.mem_cons.mp hx1 with hxe1 | hxr1
        · subst hxe1
          exact absurd (List.mem_cons_self _ _) hn1
        rcases List.mem_cons.mp hx2 with hxe2 | hxr2
        · subst hxe2
          exact absurd (List.mem_cons_self _ _) hn2
        exact ihb x1 hxr1 x2 hxr2
          (fun hm => hn1 (List.mem_cons_of_mem _ hm))
          (fun hm => hn2 (List.mem_cons_of_mem _ hm)) v1 v2 hv1 hv2 hveq
    · rw [if_neg hc] at h
      obtain ⟨iha, ihb⟩ := ih h
      have hnotp : vals ∉ possible := by simpa using hc
      constructor
      · intro x hx hnot
        rcases List.mem_cons.mp hx with hxe | hxr
        · subst hxe
          exact ⟨vals, hv, hnotp⟩
        · obtain ⟨vx, hvx, hvxn⟩ := iha x hxr hnot
          exact ⟨vx, hvx, fun hm => hvxn (List.mem_cons_of_mem _ hm)⟩
      · intro x1 hx1 x2 hx2 hn1 hn2 v1 v2 hv1 hv2 hveq
        rcases List.mem_cons.mp hx1 with hxe1 | hxr1 <;>
          rcases List.mem_cons.mp hx2 with hxe2 | hxr2
        · rw [hxe1, hxe2]
        · subst hxe1
          obtain ⟨vx, hvx, hvxn⟩ := iha x2 hxr2 hn2
          rw [hv1] at hv
          rw [hvx] at hv2
          cases hv
          cases hv2
          exact absurd (hveq ▸ List.mem_cons_self _ _) hvxn
        · subst hxe2
          obtain ⟨vx, hvx, hvxn⟩ := iha x1 hxr1 hn1
          rw [hv2] at hv
          rw [hvx] at hv1
          cases hv
          cases hv1
          exact absurd (hveq ▸ List.mem_cons_self _ _) hvxn
        · exact ihb x1 hxr1 x2 hxr2 hn1 hn2 v1 v2 hv1 hv2 hveq

/-- Membership in the edge list after `remove_edges_from`. -/
theorem mem_removeEdges {m : MealyM} {rm : List (String × String × Nat)} {e : MEdge} :
    e ∈ (removeEdges m rm).edges ↔ e ∈ m.edges ∧ e.triple ∉ rm := by
  simp [removeEdges, List.mem_filter]

/-- Membership in the `Sinit`-outgoing edge list. -/
theorem mem_sinitEdges {m : MealyM} {e : MEdge} :
    e ∈ sinitEdges m ↔ e ∈ m.edges ∧ e.src = "Sinit" := by
  simp [sinitEdges, List.mem_filter]

/-- Two dicts with the same lookups on a key list yield the same value
tuples when both reads succeed. -/
theorem getVals_congr {ks : List String} {d1 d2 : Dict}
    (hl : ∀ k ∈ ks, dlookup d1 k = dlookup d2 k) :
    ∀ {v1 v2 : List PyV}, getVals d1 ks = Except.ok v1 →
      getVals d2 ks = Except.ok v2 → v1 = v2 := by
  induction ks with
  | nil =>
    intro v1 v2 h1 h2
    unfold getVals at h1 h2
    simp only [Except.ok.injEq] at h1 h2
    rw [← h1, ← h2]
  | cons k rest ih =>
    intro v1 v2 h1 h2
    unfold getVals at h1 h2
    rcases hg1 : pyGet d1 k with msg | x1 <;> rw [hg1] at h1 <;>
      simp only [bind, Except.bind] at h1
    · cases h1
    rcases hg2 : pyGet d2 k with msg | x2 <;> rw [hg2] at h2 <;>
      simp only [bind, Except.bind] at h2
    · cases h2
    rcases hr1 : getVals d1 rest with msg | t1 <;> rw [hr1] at h1 <;>
      simp only [bind, Except.bind, pure, Except.pure, Except.ok.injEq] at h1
    · cases h1
    rcases hr2 : getVals d2 rest with msg | t2 <;> rw [hr2] at h2 <;>
      simp only [bind, Except.bind, pure, Except.pure, Except.ok.injEq] at h2
    · cases h2
    have hx : x1 = x2 := by
      have e1 := pyGet_ok_iff.mp hg1
      have e2 := pyGet_ok_iff.mp hg2
      rw [hl k (List.mem_cons_self _ _)] at e1
      rw [e1] at e2
      exact Option.some.inj e2
    have ht : t1 = t2 := ih (fun k2 hk2 => hl k2 (List.mem_cons_of_mem _ hk2)) hr1 hr2
    rw [← h1, ← h2, hx, ht]

/-- C3. After `determinize_machine_init` with a partial map of given
output ports to fixed initial values: every remaining `Sinit`-outgoing
edge label agrees with the fixed value on each given port, and for every
input valuation `Sinit` has at most one outgoing edge (at most one
enabled transition). -/
theorem determinize_machine_init_spec (m : MealyM) (iov : Dict) (m2 : MealyM)
    (hnd : m.edges.Nodup)
    (h : determinize_machine_init m iov = Except.ok m2) :
    (∀ e ∈ m2.edges, e.src = "Sinit" →
      ∀ k ∈ givenPorts m iov, dlookup e.label k = dlookup iov k) ∧
    (∀ ival : Dict, (matchingTrans m2 "Sinit" ival).length ≤ 1) := by
  unfold determinize_machine_init at h
  rcases h1 : pass1rm (givenPorts m iov) iov (sinitEdges m)
      with msg | rm1 <;> rw [h1] at h <;>
    simp only [bind, Except.bind] at h
  · cases h
  rcases h2 : pass2rm (removeEdges m rm1).inPorts [] (sinitEdges (removeEdges m rm1))
      with msg | rm2 <;> rw [h2] at h <;>
    simp only [bind, Except.bind, pure, Except.pure, Except.ok.injEq] at h
  · cases h
  subst h
  have hsub1 : ∀ e ∈ (removeEdges (removeEdges m rm1) rm2).edges,
      e ∈ (removeEdges m rm1).edges ∧ e.triple ∉ rm2 := by
    intro e he
    exact mem_removeEdges.mp he
  constructor
  · intro e he hsrc k hk
    obtain ⟨he1, _⟩ := hsub1 e he
    obtain ⟨he0, hnrm1⟩ := mem_removeEdges.mp he1
    have hmem : e ∈ sinitEdges m := mem_sinitEdges.mpr ⟨he0, hsrc⟩
    exact disagrees_false_agrees (pass1_ok_mem h1 e hmem hnrm1) k hk
  · intro ival
    rcases hlist : matchingTrans (removeEdges (removeEdges m rm1) rm2) "Sinit" ival
        with _ | ⟨x, _ | ⟨y, t⟩⟩
    · simp
    · simp
    · exfalso
      have hndm2 : (removeEdges (removeEdges m rm1) rm2).edges.Nodup := by
        exact List.Nodup.filter _ (List.Nodup.filter _ hnd)
      have hndfil : (matchingTrans (removeEdges (removeEdges m rm1) rm2)
          "Sinit" ival).Nodup := List.Nodup.filter _ hndm2
      rw [hlist] at hndfil
      have hxy : x ≠ y := by
        intro hxy
        exact (List.nodup_cons.mp hndfil).1 (hxy ▸ List.mem_cons_self _ _)
      have hxmem := mem_matchingTrans.mp (by rw [hlist]; exact List.mem_cons_self _ _)
      have hymem := mem_matchingTrans.mp
        (by rw [hlist]; exact List.mem_cons_of_mem _ (List.mem_cons_self _ _))
      obtain ⟨hx2, hxs, hxd⟩ := hxmem
      obtain ⟨hy2, hys, hyd⟩ := hymem
      obtain ⟨hx1, hxrm2⟩ := hsub1 x hx2
      obtain ⟨hy1, hyrm2⟩ := hsub1 y hy2
      have hxsin : x ∈ sinitEdges (removeEdges m rm1) :=
        mem_sinitEdges.mpr ⟨hx1, hxs⟩
      have hysin : y ∈ sinitEdges (removeEdges m rm1) :=
        mem_sinitEdges.mpr ⟨hy1, hys⟩
      obtain ⟨sound1, sound2⟩ := pass2_ok_sound h2
      obtain ⟨vx, hvx, _⟩ := sound1 x hxsin hxrm2
      obtain ⟨vy, hvy, _⟩ := sound1 y hysin hyrm2
      have hports : (removeEdges (removeEdges m rm1) rm2).inPorts =
          (removeEdges m rm1).inPorts := rfl
      have hlkx := pyDictEq_lookup hxd
      have hlky := pyDictEq_lookup hyd
      have hsame : ∀ k ∈ (removeEdges m rm1).inPorts,
          dlookup x.label k = dlookup y.label k := by
        intro k hk
        have ex := hlkx k
        have ey := hlky k
        rw [dlookup_project, if_pos (by simpa using hk)] at ex ey
        rw [ex, ← ey]
      have hveq : vx = vy := getVals_congr hsame hvx hvy
      exact hxy (sound2 x hxsin y hysin hxrm2 hyrm2 vx vy hvx hvy hveq)

/-- C9. `determinize_machine_init` is pure on the embedding (the Python
function deep-copies its argument before touching it) and only
`Sinit`-outgoing edges can differ in the result: ports, nodes, initial
nodes are unchanged, every result edge is an input edge, and every input
edge not outgoing from `Sinit` is kept. -/
theorem determinize_machine_init_frame (m : MealyM) (iov : Dict) (m2 : MealyM)
    (h : determinize_machine_init m iov = Except.ok m2) :
    m2.inputs = m.inputs ∧ m2.outputs = m.outputs ∧ m2.nodes = m.nodes ∧
    m2.initial = m.initial ∧ (∀ e ∈ m2.edges, e ∈ m.edges) ∧
    (∀ e ∈ m.edges, e.src ≠ "Sinit" → e ∈ m2.edges) := by
  unfold determinize_machine_init at h
  rcases h1 : pass1rm (givenPorts m iov) iov (sinitEdges m)
      with msg | rm1 <;> rw [h1] at h <;>
    simp only [bind, Except.bind] at h
  · cases h
  rcases h2 : pass2rm (removeEdges m rm1).inPorts [] (sinitEdges (removeEdges m rm1))
      with msg | rm2 <;> rw [h2] at h <;>
    simp only [bind, Except.bind, pure, Except.pure, Except.ok.injEq] at h
  · cases h
  subst h
  refine ⟨rfl, rfl, rfl, rfl, ?_, ?_⟩
  · intro e he
    exact (mem_removeEdges.mp (mem_removeEdges.mp he).1).1
  · intro e he hsrc
    have hrm1 : e.triple ∉ rm1 := by
      intro hmem
      obtain ⟨e2, he2, heq⟩ := pass1_triples h1 e.triple hmem
      have : e.src = e2.src := congrArg (fun t => t.1) heq
      exact hsrc (this.trans (mem_sinitEdges.mp he2).2)
    have hrm2 : e.triple ∉ rm2 := by
      intro hmem
      obtain ⟨e2, he2, heq⟩ := pass2_triples h2 e.triple hmem
      have : e.src = e2.src := congrArg (fun t => t.1) heq
      exact hsrc (this.trans (mem_sinitEdges.mp he2).2)
    exact mem_removeEdges.mpr ⟨mem_removeEdges.mpr ⟨he, hrm1⟩, hrm2⟩

/-- Concrete machine for the determinization witnesses: `Sinit` has two
outgoing edges reacting to the same input `x = 0` with different values
of output `y`, plus one non-`Sinit` edge. -/
def mealyDet : MealyM :=
  { inputs := [("x", [PyV.i 0, PyV.i 1])],
    outputs := [("y", [PyV.i 0, PyV.i 1])],
    nodes := ["Sinit", "a", "b"],
    initial := ["Sinit"],
    edges :=
      [⟨"Sinit", "a", 0, [("x", PyV.i 0), ("y", PyV.i 0)]⟩,
       ⟨"Sinit", "b", 0, [("x", PyV.i 0), ("y", PyV.i 1)]⟩,
       ⟨"a", "b", 0, [("x", PyV.i 0), ("y", PyV.i 1)]⟩] }

/-- The machine `determinize_machine_init` returns on `mealyDet` with
the fixed initial output `y = 0`. -/
def mealyDetRes : MealyM :=
  { inputs := [("x", [PyV.i 0, PyV.i 1])],
    outputs := [("y", [PyV.i 0, PyV.i 1])],
    nodes := ["Sinit", "a", "b"],
    initial := ["Sinit"],
    edges :=
      [⟨"Sinit", "a", 0, [("x", PyV.i 0), ("y", PyV.i 0)]⟩,
       ⟨"a", "b", 0, [("x", PyV.i 0), ("y", PyV.i 1)]⟩] }

/-- Witness for C3 at the concrete machine `mealyDet`. -/
theorem determinize_machine_init_spec_witness :
    dlookup [("x", PyV.i 0), ("y", PyV.i 0)] "y" = dlookup [("y", PyV.i 0)] "y" ∧
    (matchingTrans mealyDetRes "Sinit" [("x", PyV.i 0)]).length ≤ 1 :=
  ⟨(determinize_machine_init_spec mealyDet [("y", PyV.i 0)] mealyDetRes
      (by decide) (by rfl)).1
      ⟨"Sinit", "a", 0, [("x", PyV.i 0), ("y", PyV.i 0)]⟩
      (by decide) (by decide) "y" (by decide),
    (determinize_machine_init_spec mealyDet [("y", PyV.i 0)] mealyDetRes
      (by decide) (by rfl)).2 [("x", PyV.i 0)]⟩

/-- Witness for C9 at the concrete machine `mealyDet`: the non-`Sinit`
edge survives and ports are unchanged. -/
theorem determinize_machine_init_frame_witness :
    mealyDetRes.inputs = mealyDet.inputs ∧
    (⟨"a", "b", 0, [("x", PyV.i 0), ("y", PyV.i 1)]⟩ : MEdge) ∈ mealyDetRes.edges :=
  ⟨(determinize_machine_init_frame mealyDet [("y", PyV.i 0)] mealyDetRes
      (by rfl)).1,
    (determinize_machine_init_frame mealyDet [("y", PyV.i 0)] mealyDetRes
      (by rfl)).2.2.2.2.2
      ⟨"a", "b", 0, [("x", PyV.i 0), ("y", PyV.i 1)]⟩ (by decide) (by decide)⟩

/-- A labeled directed multigraph as far as `remove_deadends` sees it:
nodes, edges (label and multi-edge key irrelevant for dead-end pruning),
and the distinguished initial-node subset. -/
structure DiGraph where
  nodes : List Nat
  edges : List (Nat × Nat)
  initial : List Nat
deriving DecidableEq, Repr

/-- `self.succ[n]` nonempty test data: targets of edges leaving `n`. -/
def succs (g : DiGraph) (n : Nat) : List Nat :=
  (g.edges.filter (fun e => e.1 == n)).map Prod.snd

/-- `{n for n in self if not self.succ[n]}`: the current dead-end nodes. -/
def deadends (g : DiGraph) : List Nat :=
  g.nodes.filter (fun n => (succs g n).isEmpty)

/-- Modelled from the spec: `States.remove_from` (its defining class is
not under `src/`) removes the listed nodes together with their incident
edges and intersects `initial_nodes` with the remaining nodes. -/
def remove_nodes_from (g : DiGraph) (s : List Nat) : DiGraph :=
  { nodes := g.nodes.filter (fun n => !(s.contains n)),
    edges := g.edges.filter (fun e => !(s.contains e.1) && !(s.contains e.2)),
    initial := g.initial.filter (fun n => !(s.contains n)) }

/-- Removing a nonempty subset of the nodes strictly shrinks the node
list. -/
theorem length_filter_lt_of_mem {α : Type} {l : List α} {p : α → Bool} {x : α}
    (hx : x ∈ l) (hpx : p x = false) : (l.filter p).length < l.length := by
  induction l with
  | nil => cases hx
  | cons a t ih =>
    rcases List.mem_cons.mp hx with h | h
    · subst h
      rw [List.filter_cons, hpx]
      exact Nat.lt_succ_of_le (List.length_filter_le p t)
    · rw [List.filter_cons]
      cases hpa : p a
      · exact Nat.lt_succ_of_lt (ih h)
      · simpa using Nat.succ_lt_succ (ih h)

/-- `remove_deadends` (method of the labeled-graph base class):
`s = {1}; while s: s = deadends; remove s` — repeatedly remove the
current dead-end nodes until none is left. -/
def remove_deadends (g : DiGraph) : DiGraph :=
  if h : (deadends g).isEmpty then g
  else remove_deadends (remove_nodes_from g (deadends g))
termination_by g.nodes.length
decreasing_by
  have hne : deadends g ≠ [] := by
    intro hnil
    rw [hnil] at h
    exact h rfl
  obtain ⟨n, hn⟩ := List.exists_mem_of_ne_nil _ hne
  have hnode : n ∈ g.nodes := (List.mem_filter.mp hn).1
  exact length_filter_lt_of_mem hnode (by simp [hn])

/-- The loop in `remove_deadends` runs until no dead end is left. -/
theorem deadends_remove_deadends (g : DiGraph) :
    deadends (remove_deadends g) = [] := by
  generalize hn : g.nodes.length = n
  induction n using Nat.strong_induction_on generalizing g with
  | _ n ih =>
    by_cases hs : (deadends g).isEmpty
    · rw [remove_deadends, dif_pos hs]
      exact List.isEmpty_iff.mp hs
    · rw [remove_deadends, dif_neg hs]
      have hne : deadends g ≠ [] := by
        intro hnil
        rw [hnil] at hs
        exact hs rfl
      obtain ⟨x, hx⟩ := List.exists_mem_of_ne_nil _ hne
      have hnode : x ∈ g.nodes := (List.mem_filter.mp hx).1
      have hlt : (remove_nodes_from g (deadends g)).nodes.length < n :=
        hn ▸ length_filter_lt_of_mem hnode (by simp [hx])
      exact ih _ hlt _ rfl

/-- C6. `remove_deadends` iterates node removal to a fixpoint (the
result has no dead-end node), hence applying it twice yields the same
graph as applying it once. -/
theorem remove_deadends_idempotent (g : DiGraph) :
    remove_deadends (remove_deadends g) = remove_deadends g ∧
    deadends (remove_deadends g) = [] := by
  have h := deadends_remove_deadends g
  refine ⟨?_, h⟩
  rw [remove_deadends, dif_pos (by rw [h]; rfl)]

/-- A parity game as far as `max_color` sees it: every node carries its
validated `color` attribute (a value of `range(c)`). -/
structure ParityGameG where
  nodes : List (String × Nat)
deriving DecidableEq, Repr

/-- `ParityGame.max_color`: start from `-1` and scan all nodes, keeping
the largest `color` seen. -/
def max_color (g : ParityGameG) : Int :=
  g.nodes.foldl
    (fun max_c x => if (x.2 : Int) > max_c then (x.2 : Int) else max_c) (-1)

/-- The scanning fold of `max_color` yields an upper bound of the start
value and of all node colors, attained at the start value or at some
node. -/
theorem max_color_fold_spec (l : List (String × Nat)) (init : Int) :
    init ≤ l.foldl
        (fun max_c x => if (x.2 : Int) > max_c then (x.2 : Int) else max_c) init ∧
    (∀ x ∈ l, (x.2 : Int) ≤ l.foldl
        (fun max_c x => if (x.2 : Int) > max_c then (x.2 : Int) else max_c) init) ∧
    (l.foldl (fun max_c x => if (x.2 : Int) > max_c then (x.2 : Int) else max_c)
        init = init ∨
      ∃ x ∈ l, l.foldl
        (fun max_c x => if (x.2 : Int) > max_c then (x.2 : Int) else max_c)
        init = (x.2 : Int)) := by
  induction l generalizing init with
  | nil => exact ⟨le_refl _, fun x hx => absurd hx (List.not_mem_nil x), Or.inl rfl⟩
  | cons a t ih =>
    simp only [List.foldl_cons]
    obtain ⟨ih1, ih2, ih3⟩ := ih (if (a.2 : Int) > init then (a.2 : Int) else init)
    have hstep : init ≤ (if (a.2 : Int) > init then (a.2 : Int) else init) := by
      by_cases hgt : (a.2 : Int) > init
      · rw [if_pos hgt]; exact le_of_lt hgt
      · rw [if_neg hgt]
    have hastep : (a.2 : Int) ≤ (if (a.2 : Int) > init then (a.2 : Int) else init) := by
      by_cases hgt : (a.2 : Int) > init
      · rw [if_pos hgt]
      · rw [if_neg hgt]; exact le_of_not_lt hgt
    refine ⟨le_trans hstep ih1, ?_, ?_⟩
    · intro x hx
      rcases List.mem_cons.mp hx with hxa | hxt
      · subst hxa; exact le_trans hastep ih1
      · exact ih2 x hxt
    · rcases ih3 with heq | ⟨x, hx, heq⟩
      · by_cases hgt : (a.2 : Int) > init
        · rw [if_pos hgt] at heq ⊢
          exact Or.inr ⟨a, List.mem_cons_self _ _, heq⟩
        · rw [if_neg hgt] at heq ⊢
          exact Or.inl heq
      · exact Or.inr ⟨x, List.mem_cons_of_mem _ hx, heq⟩

/-- C10. `ParityGame.max_color` returns the maximum of the `color`
attribute over all nodes, and `-1` on a game with no nodes. -/
theorem max_color_spec (g : ParityGameG) :
    (g.nodes = [] → max_color g = -1) ∧
    (∀ x ∈ g.nodes, (x.2 : Int) ≤ max_color g) ∧
    (g.nodes ≠ [] → ∃ x ∈ g.nodes, max_color g = (x.2 : Int)) := by
  obtain ⟨h1, h2, h3⟩ := max_color_fold_spec g.nodes (-1)
  refine ⟨?_, h2, ?_⟩
  · intro hnil
    unfold max_color
    rw [hnil]
    rfl
  · intro hne
    rcases h3 with heq | hex
    · exfalso
      obtain ⟨x, hx⟩ := List.exists_mem_of_ne_nil _ hne
      have hle := h2 x hx
      rw [heq] at hle
      have hge : (0 : Int) ≤ (x.2 : Int) := Int.ofNat_nonneg _
      omega
    · exact hex

/-- Witness for C10: a concrete two-node parity game whose maximal color
is 2, and the empty game giving `-1`. -/
theorem max_color_spec_witness :
    max_color ⟨[]⟩ = -1 ∧ ((2 : Nat) : Int) ≤ max_color ⟨[("u", 1), ("v", 2)]⟩ :=
  ⟨(max_color_spec ⟨[]⟩).1 rfl,
    (max_color_spec ⟨[("u", 1), ("v", 2)]⟩).2.1 ("v", 2) (by decide)⟩

/-- An `Automaton` as far as `check_sanity` sees it, with
`accepting_sets` in the list-of-node-sets shape that the class docstring
prescribes for Muller / generalized Buchi (a Python `list` of `set`s of
nodes). -/
structure AutomatonA where
  nodes : List PyV
  acceptance : String
  accepting_sets : List (List PyV)
deriving Repr

/-- `u in self` where `u` is a Python `set` value: a `set` is not
hashable, `networkx.__contains__` catches the resulting `TypeError` and
returns `False`, so a set of nodes is never itself a current node. -/
def set_in_nodes (_nodes : List PyV) (_u : List PyV) : Bool := false

/-- Python `set(x) == {a, b}` for a set `x` of scalars. -/
def pySetEqPair (x : List PyV) (a b : PyV) : Bool :=
  x.all (fun v => v == a || v == b) && x.contains a && x.contains b

/-- The Rabin / Streett branch of `check_sanity` on the
list-of-node-sets shape: `len(x) == 2` and `set(x) == ...` are checked
on each entry, then `x['[]<>']` indexes a Python `set` and raises
`TypeError`. -/
def rabinScan (entries : List (List PyV)) : Except String Bool :=
  match entries with
  | [] => Except.ok true
  | x :: _ =>
      if x.length ≠ 2 then Except.error "AssertionError"
      else if ¬ pySetEqPair x (PyV.s "[]<>") (PyV.s "<>[]!") then
        Except.error "AssertionError"
      else Except.error "TypeError"

/-- `Automaton.check_sanity`, transliterated branch by branch; the
Muller / generalized Buchi branch runs `for x in s: assert f(s)` — it
tests `f` on `s` itself (whose elements are the accepting node-sets),
not on the set `x` of nodes. -/
def check_sanity (A : AutomatonA) : Except String Bool :=
  let a := A.acceptance
  let s := A.accepting_sets
  if a = "finite" ∨ a = "Buchi" ∨ a = "coBuchi" ∨ a = "weak Buchi" then
    if s.all (fun u => set_in_nodes A.nodes u) then Except.ok true
    else Except.error "AssertionError"
  else if a = "Muller" ∨ a = "generalized Buchi" then
    if s.all (fun _x => s.all (fun u => set_in_nodes A.nodes u)) then Except.ok true
    else Except.error "AssertionError"
  else if a = "Rabin" ∨ a = "Streett" then rabinScan s
  else if a = "parity" then
    if s.length = 2 then Except.ok true else Except.error "AssertionError"
  else Except.error "Unknown acceptance"

/-- A Muller automaton whose single accepting set references only
current nodes of the graph. -/
def autMuller : AutomatonA :=
  { nodes := [PyV.i 0, PyV.i 1],
    acceptance := "Muller",
    accepting_sets := [[PyV.i 0]] }

/-- C7 (code bug). On a Muller automaton whose `accepting_sets` is a
list of node-sets referencing only current nodes, `check_sanity` still
raises `AssertionError`: the loop body asserts `f(s)` instead of `f(x)`,
so it asks whether each accepting *set* is itself a node (it never is —
sets are unhashable), instead of checking the nodes inside the set. -/
theorem check_sanity_muller_bug :
    (∀ u ∈ autMuller.accepting_sets, ∀ v ∈ u, v ∈ autMuller.nodes) ∧
    autMuller.acceptance = "Muller" ∧
    check_sanity autMuller = Except.error "AssertionError" :=
  ⟨by decide, rfl, rfl⟩

/-- A labeled graph as far as `Transitions.find` sees it: edges are
`(from, to, attribute dict)`. -/
structure LGraph where
  nodes : List String
  edges : List (String × String × Dict)
deriving Repr

/-- Modelled from the spec: `label_is_desired` (defined in the part of
`labeled_graphs.py` that is not under `src/`) matches when the edge
attributes satisfy every key/value constraint of the filter, with exact
equality per key. -/
def label_is_desired (attr : Dict) (want : Dict) : Bool :=
  want.all (fun p => dlookup attr p.1 == some p.2)

/-- `Transitions.find`, parametric in the label matcher `lid`
(`label_is_desired` in the source): restrict to edges leaving
`from_states` (all edges when `none`), then to edges entering
`to_states`; keep an edge when the filter is empty, when the edge has no
attributes at all (`ok` stays `True` in the `elif not attr_dict` branch
of the source), and otherwise when `lid` accepts it. -/
def findTransitions (lid : Dict → Dict → Bool) (g : LGraph)
    (from_states : Option (List String)) (to_states : Option (List String))
    (with_attr : Dict) : List (String × String × Dict) :=
  let uv := match from_states with
    | none => g.edges
    | some fs => g.edges.filter (fun e => fs.contains e.1)
  let uv := match to_states with
    | none => uv
    | some ts => uv.filter (fun e => ts.contains e.2.1)
  uv.filter (fun e =>
    if with_attr.isEmpty then true
    else if e.2.2.isEmpty then true
    else lid e.2.2 with_attr)

/-- A graph with a single, completely unlabeled edge. -/
def graphUnlabeled : LGraph :=
  { nodes := ["a", "b"], edges := [("a", "b", [])] }

/-- C5 (code bug). `Transitions.find` with the non-empty filter
`p = 1` returns the attribute-less edge `a -> b` even though the spec
says an edge with no attributes never matches a non-empty filter (and
`label_is_desired` itself rejects it); the `elif not attr_dict:` branch
of the source leaves `ok = True`. -/
theorem find_unlabeled_edge_bug :
    findTransitions label_is_desired graphUnlabeled
        (some ["a"]) none [("p", PyV.i 1)] = [("a", "b", [])] ∧
    label_is_desired [] [("p", PyV.i 1)] = false :=
  ⟨rfl, rfl⟩

/-- A Moore machine (`machines.MooreMachine`): outputs annotate nodes
(each node carries its attribute dict), inputs annotate edges. -/
structure MooreM where
  inputs : List (String × List PyV)
  outputs : List (String × List PyV)
  nodes : List (String × Dict)
  initial : List String
  edges : List MEdge
deriving DecidableEq, Repr

/-- Python `dict.update` on a port dict (`{name: domain}`): keys of the
second dict override, other keys are kept. -/
def portUpdate (a b : List (String × List PyV)) :
    List (String × List PyV) :=
  a.filter (fun p => !((b.map Prod.fst).contains p.1)) ++ b

/-- The output valuation of a Moore node: its attribute dict restricted
to the declared output ports (its node label is read through the graph
base class, which is not under `src/`; following the spec it yields the
node attribute dict). -/
def mooreOutputValues (moore : MooreM) (attrs : Dict) : Dict :=
  attrs.filter (fun p => (moore.outputs.map Prod.fst).contains p.1)

/-- `machines.moore2mealy`, transliterated: a fresh Mealy machine whose
input ports are updated with themselves (`mealy.inputs.update(
mealy.inputs)` in the source — the Moore input ports are never copied),
whose output ports come from the Moore machine, and where each outgoing
edge label is the Moore edge label updated with the source node's
output valuation. -/
def moore2mealy (moore : MooreM) : MealyM :=
  let mealy := MealyM.empty
  { mealy with
    inputs := portUpdate mealy.inputs mealy.inputs,
    outputs := portUpdate mealy.outputs moore.outputs,
    nodes := moore.nodes.map Prod.fst,
    initial := moore.initial,
    edges := moore.nodes.flatMap (fun si =>
      let output_values := mooreOutputValues moore si.2
      (moore.edges.filter (fun e => e.src == si.1)).map
        (fun e => { e with label := dictUpdate e.label output_values })) }

/-- A two-state Moore machine: input port `x`, output port `y`, node `a`
outputs `y = 0`, node `b` outputs `y = 1`, edges `a -> b` and `b -> a`
both on input `x = 0`. -/
def mooreW : MooreM :=
  { inputs := [("x", [PyV.i 0, PyV.i 1])],
    outputs := [("y", [PyV.i 0, PyV.i 1])],
    nodes := [("a", [("y", PyV.i 0)]), ("b", [("y", PyV.i 1)])],
    initial := ["a"],
    edges := [⟨"a", "b", 0, [("x", PyV.i 0)]⟩, ⟨"b", "a", 0, [("x", PyV.i 0)]⟩] }

/-- C4 (code bug). `moore2mealy` does copy each Moore node's output
valuation onto the outgoing edges (here `y = 0` onto the edge leaving
`a`), but it updates the fresh Mealy machine's input-port dict with
itself instead of with the Moore machine's, so the result declares no
input ports; `reaction` from `a` under the valid input `x = 0` then
matches no edge (the projection of every label onto the empty input-port
set is `{}`, which never equals `x = 0`) and raises, instead of
reproducing the Moore output sequence. -/
theorem moore2mealy_inputs_bug :
    mooreW.inputs = [("x", [PyV.i 0, PyV.i 1])] ∧
    (moore2mealy mooreW).inputs = [] ∧
    dlookup (MEdge.label ⟨"a", "b", 0, [("x", PyV.i 0), ("y", PyV.i 0)]⟩) "y" =
      some (PyV.i 0) ∧
    (moore2mealy mooreW).edges =
      [⟨"a", "b", 0, [("x", PyV.i 0), ("y", PyV.i 0)]⟩,
       ⟨"b", "a", 0, [("x", PyV.i 0), ("y", PyV.i 1)]⟩] ∧
    reaction (moore2mealy mooreW) "a" [("x", PyV.i 0)] =
      Except.error "must be input-deterministic, found enabled transitions" :=
  ⟨rfl, rfl, rfl, rfl, rfl⟩

/-- `len(set(len(x) for x in seqs.itervalues())) <= 1`: all sequence
lengths equal. -/
def allEqLengths : List Nat → Bool
  | [] => true
  | x :: t => t.all (fun y => y == x)

/-- `{k: v[i] for k, v in seqs.iteritems()}`: the input valuation fed to
the machine at time step `i`. -/
def inputsAt (seqs : List (String × List PyV)) (i : Nat) : Except String Dict :=
  match seqs with
  | [] => Except.ok []
  | (k, v) :: rest => do
      let x ← match v.get? i with
        | some x => Except.ok x
        | none => Except.error "IndexError"
      let r ← inputsAt rest i
      Except.ok ((k, x) :: r)

/-- Prepend one produced output value to each output-port history. -/
def zipCons : List PyV → List (List PyV) → List (List PyV)
  | [], _ => []
  | _ :: _, [] => []
  | h :: ht, l :: lt => (h :: l) :: zipCons ht lt

/-- The `for i in range(n)` loop of `guided_run`: feed the inputs of
each remaining step to `reaction`, collecting the visited states and,
aligned with the declared output ports, the produced values
(`output_seqs[k].append(outputs[k])`). -/
def run_steps (mealy : MealyM) (seqs : List (String × List PyV)) :
    String → Nat → Nat → Except String (List String × List (List PyV))
  | _, _, 0 => Except.ok ([], mealy.outPorts.map (fun _ => []))
  | state, i, rem + 1 => do
      let ival ← inputsAt seqs i
      let r ← reaction mealy state ival
      let rest ← run_steps mealy seqs r.1 (i + 1) rem
      let heads ← getVals r.2 mealy.outPorts
      Except.ok (r.1 :: rest.1, zipCons heads rest.2)

/-- `machines.guided_run`: check that no declared input port is missing
from the sequences and that all sequences have equal length (the values
are lists by typing); start from the given state, else from
`next(iter(mealy.initial_nodes))` (`StopIteration` when there is no
initial node); the number of steps is the length of the first sequence
(`StopIteration` on an empty sequence dict); then run the reaction loop
and return the visited states with the per-port output sequences. -/
def guided_run (mealy : MealyM) (from_state : Option String)
    (seqs : List (String × List PyV)) :
    Except String (List String × List (String × List PyV)) :=
  if (mealy.inPorts.filter
      (fun k => !((seqs.map Prod.fst).contains k))).isEmpty = false then
    Except.error "missing input port(s)"
  else if allEqLengths (seqs.map (fun p => p.2.length)) = false then
    Except.error "All input sequences must be of equal length."
  else do
    let state ← match from_state with
      | some st => Except.ok st
      | none =>
        match mealy.initial with
        | [] => Except.error "StopIteration"
        | st :: _ => Except.ok st
    let n ← match seqs with
      | [] => Except.error "StopIteration"
      | p :: _ => Except.ok p.2.length
    let r ← run_steps mealy seqs state 0 n
    Except.ok (r.1, mealy.outPorts.zip r.2)

/-- Machine for the C8 counterexample: `Sinit` with sole successor `a`,
and `a` stepping to `b`; the edge out of `Sinit` outputs `y = 0`, the
edge out of `a` outputs `y = 1`. -/
def mealyRun : MealyM :=
  { inputs := [("x", [PyV.i 0, PyV.i 1])],
    outputs := [("y", [PyV.i 0, PyV.i 1])],
    nodes := ["Sinit", "a", "b"],
    initial := ["Sinit"],
    edges :=
      [⟨"Sinit", "a", 0, [("x", PyV.i 0), ("y", PyV.i 0)]⟩,
       ⟨"a", "b", 0, [("x", PyV.i 0), ("y", PyV.i 1)]⟩] }

/-- C8 counterexample. Called without a start state, `guided_run` starts
from the initial node itself (`state = next(iter(mealy.initial_nodes))`
in the source), not from the sole successor of `Sinit`: on `mealyRun`
the sole successor of `Sinit` is `a`, yet the run without a start state
visits `a` and outputs `y = 0` (the `Sinit`-edge), while a run started
at `a` visits `b` and outputs `y = 1`. -/
theorem guided_run_default_start_counterexample :
    (mealyRun.edges.filter (fun e => e.src == "Sinit")).map MEdge.dst = ["a"] ∧
    guided_run mealyRun none [("x", [PyV.i 0])] =
      Except.ok (["a"], [("y", [PyV.i 0])]) ∧
    guided_run mealyRun (some "a") [("x", [PyV.i 0])] =
      Except.ok (["b"], [("y", [PyV.i 1])]) ∧
    ((["a"], [("y", [PyV.i 0])]) ≠ (["b"], [("y", [PyV.i 1])])) :=
  ⟨rfl, rfl, rfl, by decide⟩

/-- `getVals` returns one value per requested key. -/
theorem getVals_length {d : Dict} :
    ∀ {ks : List String} {v : List PyV},
      getVals d ks = Except.ok v → v.length = ks.length := by
  intro ks
  induction ks with
  | nil =>
    intro v h
    unfold getVals at h
    simp only [Except.ok.injEq] at h
    rw [← h]
    rfl
  | cons k rest ih =>
    intro v h
    unfold getVals at h
    rcases hg : pyGet d k with msg | x <;> rw [hg] at h <;>
      simp only [bind, Except.bind] at h
    · cases h
    rcases hr : getVals d rest with msg | t <;> rw [hr] at h <;>
      simp only [bind, Except.bind, pure, Except.pure, Except.ok.injEq] at h
    · cases h
    rw [← h]
    simp [ih hr]

/-- Length of the pointwise cons when both lists align. -/
theorem zipCons_length : ∀ {a : List PyV} {b : List (List PyV)},
    a.length = b.length → (zipCons a b).length = a.length := by
  intro a
  induction a with
  | nil => intro b _; rfl
  | cons h ht ih =>
    intro b hlen
    cases b with
    | nil => cases hlen
    | cons l lt =>
      simp only [zipCons, List.length_cons]
      simp only [List.length_cons, Nat.succ.injEq] at hlen
      rw [ih hlen]

/-- Members of the pointwise cons are conses of members. -/
theorem mem_zipCons : ∀ {a : List PyV} {b : List (List PyV)} {x : List PyV},
    x ∈ zipCons a b → ∃ h l, l ∈ b ∧ x = h :: l := by
  intro a
  induction a with
  | nil => intro b x hx; cases hx
  | cons h ht ih =>
    intro b x hx
    cases b with
    | nil => cases hx
    | cons l lt =>
      rcases List.mem_cons.mp hx with hxe | hxr
      · exact ⟨h, l, List.mem_cons_self _ _, hxe⟩
      · obtain ⟨h2, l2, hl2, hx2⟩ := ih hxr
        exact ⟨h2, l2, List.mem_cons_of_mem _ hl2, hx2⟩

/-- When `getVals` succeeds, the value at each position is the lookup of
the corresponding key. -/
theorem getVals_getD {d : Dict} :
    ∀ {ks : List String} {v : List PyV}, getVals d ks = Except.ok v →
      ∀ p, p < ks.length →
        dlookup d (ks.getD p "") = some (v.getD p (PyV.i 0)) := by
  intro ks
  induction ks with
  | nil =>
    intro v _ p hp
    cases hp
  | cons k rest ih =>
    intro v h p hp
    unfold getVals at h
    rcases hg : pyGet d k with msg | x <;> rw [hg] at h <;>
      simp only [bind, Except.bind] at h
    · cases h
    rcases hr : getVals d rest with msg | t <;> rw [hr] at h <;>
      simp only [bind, Except.bind, pure, Except.pure, Except.ok.injEq] at h
    · cases h
    rw [← h]
    cases p with
    | zero => simpa using pyGet_ok_iff.mp hg
    | succ p2 =>
      simpa using ih hr p2 (Nat.lt_of_succ_lt_succ hp)

/-- Entry `p` of the pointwise cons, when both lists align. -/
theorem zipCons_getD : ∀ {a : List PyV} {b : List (List PyV)},
    a.length = b.length → ∀ p, p < a.length →
      (zipCons a b).getD p [] = a.getD p (PyV.i 0) :: b.getD p [] := by
  intro a
  induction a with
  | nil =>
    intro b _ p hp
    cases hp
  | cons h0 ht ih =>
    intro b hlen p hp
    cases b with
    | nil => cases hlen
    | cons l lt =>
      cases p with
      | zero => rfl
      | succ p2 =>
        simp only [List.length_cons, Nat.succ.injEq] at hlen
        simpa [zipCons] using ih hlen p2 (Nat.lt_of_succ_lt_succ hp)

/-- Entry `p` of a zip of two aligned lists. -/
theorem zip_getD {α β : Type} :
    ∀ {as : List α} {bs : List β}, as.length = bs.length →
      ∀ p, p < as.length → ∀ (d1 : α) (d2 : β),
        (as.zip bs).getD p (d1, d2) = (as.getD p d1, bs.getD p d2) := by
  intro as
  induction as with
  | nil =>
    intro bs _ p hp
    cases hp
  | cons a at2 ih =>
    intro bs hlen p hp d1 d2
    cases bs with
    | nil => cases hlen
    | cons b bt =>
      cases p with
      | zero => rfl
      | succ p2 =>
        simp only [List.length_cons, Nat.succ.injEq] at hlen
        simpa [List.zip_cons_cons] using
          ih hlen p2 (Nat.lt_of_succ_lt_succ hp) d1 d2

/-- The reaction loop of `guided_run`: on success it visits one state
per time step, keeps one history per output port each of full length,
every step is the unique `reaction` of the machine at the previous state
under that step's input valuation, and the value at time `j` of the
history at port position `p` is exactly the value the step-`j` reaction
produced on that port. -/
theorem run_steps_ok_spec (m : MealyM) (seqs : List (String × List PyV)) :
    ∀ (rem i : Nat) (state : String) (sts : List String)
      (oseqs : List (List PyV)),
      run_steps m seqs state i rem = Except.ok (sts, oseqs) →
      sts.length = rem ∧
      oseqs.length = m.outPorts.length ∧
      (∀ l ∈ oseqs, l.length = rem) ∧
      (∀ j, j < rem → ∃ ival outs heads,
        inputsAt seqs (i + j) = Except.ok ival ∧
        reaction m ((state :: sts).getD j "") ival =
          Except.ok (sts.getD j "", outs) ∧
        getVals outs m.outPorts = Except.ok heads ∧
        (∀ p, p < m.outPorts.length →
          (oseqs.getD p []).getD j (PyV.i 0) = heads.getD p (PyV.i 0))) := by
  intro rem
  induction rem with
  | zero =>
    intro i state sts oseqs h
    unfold run_steps at h
    simp only [Except.ok.injEq, Prod.mk.injEq] at h
    obtain ⟨h1, h2⟩ := h
    refine ⟨by rw [← h1]; rfl, by rw [← h2]; simp, ?_, ?_⟩
    · intro l hl
      rw [← h2] at hl
      obtain ⟨_, _, he⟩ := List.mem_map.mp hl
      rw [← he]
      rfl
    · intro j hj
      cases hj
  | succ k ih =>
    intro i state sts oseqs h
    unfold run_steps at h
    rcases h1 : inputsAt seqs i with msg | ival <;> rw [h1] at h <;>
      simp only [bind, Except.bind] at h
    · cases h
    rcases h2 : reaction m state ival with msg | r <;> rw [h2] at h <;>
      simp only [bind, Except.bind] at h
    · cases h
    rcases h3 : run_steps m seqs r.1 (i + 1) k with msg | rest <;> rw [h3] at h <;>
      simp only [bind, Except.bind] at h
    · cases h
    rcases h4 : getVals r.2 m.outPorts with msg | heads <;> rw [h4] at h <;>
      simp only [bind, Except.bind, Except.ok.injEq, Prod.mk.injEq] at h
    · cases h
    obtain ⟨hsts, hoseqs⟩ := h
    obtain ⟨ihl, ihol, ihev, ihchain⟩ := ih (i + 1) r.1 rest.1 rest.2 h3
    have hheads : heads.length = m.outPorts.length := getVals_length h4
    have halign : heads.length = rest.2.length := by rw [hheads, ihol]
    refine ⟨?_, ?_, ?_, ?_⟩
    · rw [← hsts]
      simp [ihl]
    · rw [← hoseqs, zipCons_length halign]
      exact hheads
    · intro l hl
      rw [← hoseqs] at hl
      obtain ⟨hd, tl, htl, hle⟩ := mem_zipCons hl
      rw [hle]
      simp [ihev tl htl]
    · intro j hj
      cases j with
      | zero =>
        refine ⟨ival, r.2, heads, by simpa using h1, ?_, h4, ?_⟩
        · rw [← hsts]
          simpa using h2
        · intro p hp
          rw [← hoseqs, zipCons_getD halign p (by rw [hheads]; exact hp)]
          rfl
      | succ j2 =>
        obtain ⟨ival2, outs2, heads2, hi2, hr2, hg2, hp2⟩ :=
          ihchain j2 (Nat.lt_of_succ_lt_succ hj)
        refine ⟨ival2, outs2, heads2, ?_, ?_, hg2, ?_⟩
        · have : i + (j2 + 1) = i + 1 + j2 := by omega
          rw [this]
          exact hi2
        · rw [← hsts]
          simpa using hr2
        · intro p hp
          rw [← hoseqs, zipCons_getD halign p (by rw [hheads]; exact hp),
            List.getD_cons_succ]
          exact hp2 p hp

/-- C8 (amended). Called without an explicit start state, `guided_run`
starts from the machine's initial node itself (the first element of
`initial_nodes`, i.e. `Sinit` for synthesized machines) — not from the
successor of `Sinit` — and the run then behaves as the repeated
`reaction` of the machine: given equal-length input sequences for every
declared input port it returns the sequence of visited states and, per
output port, the sequence of values produced by the reactions — at step
`j`, the entry at index `j` of every returned port history equals the
output the step-`j` reaction produced on that port; ambiguity of the
initial edge is only detected by `reaction` raising at the first
step. -/
theorem guided_run_amended (m : MealyM) (seqs : List (String × List PyV))
    (s0 : String) (irest : List String) (hinit : m.initial = s0 :: irest) :
    guided_run m none seqs = guided_run m (some s0) seqs ∧
    (∀ states outs, guided_run m (some s0) seqs = Except.ok (states, outs) →
      ∃ p prest oseqs, seqs = p :: prest ∧
        states.length = p.2.length ∧
        outs = m.outPorts.zip oseqs ∧
        outs.map Prod.fst = m.outPorts ∧
        (∀ q ∈ outs, q.2.length = p.2.length) ∧
        (∀ j, j < p.2.length → ∃ ival outsj,
          inputsAt seqs j = Except.ok ival ∧
          reaction m ((s0 :: states).getD j "") ival =
            Except.ok (states.getD j "", outsj) ∧
          (∀ q, q < outs.length →
            dlookup outsj (outs.getD q ("", [])).1 =
              some ((outs.getD q ("", [])).2.getD j (PyV.i 0))))) := by
  constructor
  · unfold guided_run
    rw [hinit]
  · intro states outs h
    unfold guided_run at h
    by_cases hmiss : (m.inPorts.filter
        (fun k => !((seqs.map Prod.fst).contains k))).isEmpty = false
    · rw [if_pos hmiss] at h
      cases h
    rw [if_neg hmiss] at h
    by_cases hlen : allEqLengths (seqs.map (fun p => p.2.length)) = false
    · rw [if_pos hlen] at h
      cases h
    rw [if_neg hlen] at h
    simp only [bind, Except.bind] at h
    rcases hseqs : seqs with _ | ⟨p, prest⟩
    · rw [hseqs] at h
      simp only [bind, Except.bind] at h
      cases h
    subst hseqs
    simp only [bind, Except.bind] at h
    rcases hr : run_steps m (p :: prest) s0 0 p.2.length with msg | r <;>
      rw [hr] at h <;>
      simp only [bind, Except.bind, Except.ok.injEq, Prod.mk.injEq] at h
    · cases h
    obtain ⟨hsts, houts⟩ := h
    obtain ⟨hl, hol, hev, hchain⟩ :=
      run_steps_ok_spec m (p :: prest) p.2.length 0 s0 r.1 r.2 hr
    have hzlen : (m.outPorts.zip r.2).length = m.outPorts.length := by
      rw [List.length_zip, hol, Nat.min_self]
    refine ⟨p, prest, r.2, rfl, ?_, ?_, ?_, ?_, ?_⟩
    · rw [← hsts]; exact hl
    · rw [← houts]
    · rw [← houts]
      exact List.map_fst_zip _ _ (by rw [hol])
    · intro q hq
      rw [← houts] at hq
      have := List.of_mem_zip hq
      exact hev q.2 this.2
    · intro j hj
      obtain ⟨ival, outsj, headsj, hi, hrj, hgj, hpj⟩ := hchain j hj
      refine ⟨ival, outsj, by simpa using hi, ?_, ?_⟩
      · rw [← hsts]
        exact hrj
      · intro q hq
        rw [← houts] at hq ⊢
        rw [hzlen] at hq
        rw [zip_getD hol.symm q hq "" []]
        simp only
        rw [getVals_getD hgj q hq, hpj q hq]

/-- Witness for the amended C8 at the concrete machine `mealyRun`,
whose initial-node set is `[Sinit]`. -/
theorem guided_run_amended_witness :
    guided_run mealyRun none [("x", [PyV.i 0])] =
      guided_run mealyRun (some "Sinit") [("x", [PyV.i 0])] :=
  (guided_run_amended mealyRun [("x", [PyV.i 0])] "Sinit" [] (by rfl)).1

/-- A variable domain descriptor of a `GRSpec`: `'boolean'`, an
inclusive integer range (a tuple), or an explicit finite string list. -/
inductive VarDom where
  | boolean
  | irange (lo hi : Int)
  | strlist (l : List String)
deriving DecidableEq, Repr

/-- `machines.create_machine_ports`: boolean variables become `{0, 1}`
ports, integer ranges become `set(range(start, end + 1))`, string lists
become string-set ports. -/
def create_machine_ports (spc_vars : List (String × VarDom)) :
    List (String × List PyV) :=
  spc_vars.map (fun p => (p.1,
    match p.2 with
    | VarDom.boolean => [PyV.i 0, PyV.i 1]
    | VarDom.irange lo hi =>
        (List.range (hi - lo + 1).toNat).map (fun k => PyV.i (lo + k))
    | VarDom.strlist l => l.map PyV.s))

/-- A raw strategy graph returned by the solver: each node carries its
`'state'` attribute, a full variable valuation. -/
structure StratG where
  nodes : List (String × Dict)
  edges : List (String × String)
deriving DecidableEq, Repr

/-- A `GRSpec` as `strategy2mealy` consumes it: the variable domains,
and the compiled initial-condition predicate
(`spec.compile_init(no_str=True)` evaluated by `eval(isinit, tmp)` — an
external collaborator, represented as a Boolean predicate on
valuations). -/
structure GRSpecM where
  env_vars : List (String × VarDom)
  sys_vars : List (String × VarDom)
  isinit : Dict → Bool

/-- The string-listed variables of a domain table. -/
def strVarsOf (vars : List (String × VarDom)) : List (String × List String) :=
  vars.filterMap (fun p =>
    match p.2 with
    | VarDom.strlist l => some (p.1, l)
    | _ => none)

/-- Python list indexing with negative indices. -/
def pyIndex (l : List String) (n : Int) : Except String String :=
  let m := if n < 0 then n + l.length else n
  if h : 0 ≤ m ∧ m.toNat < l.length then Except.ok (l.get ⟨m.toNat, h.2⟩)
  else Except.error "IndexError"

/-- `synth._int2str`: replace the integer value of every string-listed
variable with the string at that index of its range list. -/
def int2str (str_vars : List (String × List String)) : Dict → Except String Dict
  | [] => Except.ok []
  | (k, v) :: rest => do
      let r ← int2str str_vars rest
      match (str_vars.find? (fun p => p.1 == k)).map Prod.snd with
      | none => Except.ok ((k, v) :: r)
      | some l =>
        match v with
        | PyV.i n => do
            let s ← pyIndex l n
            Except.ok ((k, PyV.s s) :: r)
        | PyV.s _ => Except.error "TypeError"

/-- The `'state'` attribute of a strategy node, `A.node[v]['state']`. -/
def nodeState (g : StratG) (v : String) : Except String Dict :=
  match g.nodes.find? (fun p => p.1 == v) with
  | some p => Except.ok p.2
  | none => Except.error "KeyError"

/-- The copied strategy transitions: for every strategy edge `u -> v`,
a machine edge labeled with `v`'s valuation after `_int2str`. -/
def stratEdges (g : StratG) (strv : List (String × List String)) :
    List (String × String) → Except String (List MEdge)
  | [] => Except.ok []
  | (u, v) :: rest => do
      let d ← nodeState g v
      let d2 ← int2str strv d
      let es ← stratEdges g strv rest
      Except.ok (⟨u, v, 0, d2⟩ :: es)

/-- The `Sinit` pass of `strategy2mealy`: walk the strategy nodes in
order; skip a node whose valuation tuple was already used; update the
scratch dict `tmp` with the valuation and test the compiled initial
condition; on success add `Sinit -> u` labeled with the (string-mapped)
valuation and remember the tuple. -/
def sinitPass (spec : GRSpecM) (strv : List (String × List String))
    (keys : List String) :
    List (String × Dict) → List (List PyV) → Dict → Except String (List MEdge)
  | [], _, _ => Except.ok []
  | (u, d) :: rest, init_vals, tmp => do
      let vals ← getVals d keys
      if init_vals.contains vals then sinitPass spec strv keys rest init_vals tmp
      else
        let tmp2 := dictUpdate tmp d
        if spec.isinit tmp2 = false then
          sinitPass spec strv keys rest init_vals tmp2
        else do
          let label ← int2str strv d
          let es ← sinitPass spec strv keys rest (vals :: init_vals) tmp2
          Except.ok (⟨"Sinit", u, 0, label⟩ :: es)

/-- `synth.strategy2mealy`: raise on a `None` or empty strategy; build
the input/output ports from the specification's variable domains; copy
every strategy node and label each copied edge with the successor's
valuation; add the synthetic `Sinit` node with one initial reaction per
distinct valuation satisfying the initial condition; raise
(`ConstructionError` dump) when `Sinit` ends up with no successor. -/
def strategy2mealy (A : Option StratG) (spec : GRSpecM) :
    Except String MealyM :=
  match A with
  | none => Except.error "Empty graph returned as synthesized strategy !"
  | some g =>
    if g.nodes.isEmpty then
      Except.error "Empty graph returned as synthesized strategy !"
    else do
      let inputs := create_machine_ports spec.env_vars
      let outputs := create_machine_ports spec.sys_vars
      let strv := strVarsOf spec.env_vars ++ strVarsOf spec.sys_vars
      let es ← stratEdges g strv g.edges
      let keys := match g.nodes with
        | [] => []
        | u0 :: _ => dkeys u0.2
      let sinit ← sinitPass spec strv keys g.nodes [] []
      if sinit.isEmpty then
        Except.error "The machine obtained from the strategy does not have any initial states !"
      else
        Except.ok
          { inputs := portUpdate MealyM.empty.inputs inputs,
            outputs := portUpdate MealyM.empty.outputs outputs,
            nodes := g.nodes.map Prod.fst ++ ["Sinit"],
            initial := ["Sinit"],
            edges := es ++ sinit }

/-- The dead-end nodes of a Mealy machine (no outgoing edge). -/
def mealyDeadendNodes (m : MealyM) : List String :=
  m.nodes.filter (fun n => (m.edges.filter (fun e => e.src == n)).isEmpty)

/-- Node removal on a Mealy machine: drop the nodes, their incident
edges, and intersect the initial nodes. -/
def mealyRemoveNodes (m : MealyM) (s : List String) : MealyM :=
  { m with
    nodes := m.nodes.filter (fun n => !(s.contains n)),
    edges := m.edges.filter
      (fun e => !(s.contains e.src) && !(s.contains e.dst)),
    initial := m.initial.filter (fun n => !(s.contains n)) }

/-- `remove_deadends` applied to the synthesized machine by
`synth.synthesize` (`rm_deadends`): iterate node removal to a
fixpoint. -/
def mealyRemoveDeadends (m : MealyM) : MealyM :=
  if hstop : (mealyDeadendNodes m).isEmpty then m
  else mealyRemoveDeadends (mealyRemoveNodes m (mealyDeadendNodes m))
termination_by m.nodes.length
decreasing_by
  have hne : mealyDeadendNodes m ≠ [] := by
    intro hnil
    rw [hnil] at hstop
    exact hstop rfl
  obtain ⟨n, hn⟩ := List.exists_mem_of_ne_nil _ hne
  have hnode : n ∈ m.nodes := (List.mem_filter.mp hn).1
  exact length_filter_lt_of_mem hnode (by simp [hn])

/-- `synth.synthesize`: dispatch on the solver option (the external
solver's result — a strategy graph or `None` — is a parameter), then
convert the strategy with `strategy2mealy` unconditionally; the
`if not isinstance(ctrl, MealyMachine): return None` test runs only
when the conversion returned; finally prune dead ends. -/
def synthesize (option : String) (solver_strategy : Option StratG)
    (specs : GRSpecM) (rm_deadends : Bool := true) :
    Except String (Option MealyM) := do
  let strategy ←
    if option = "gr1c" ∨ option = "jtlv" then Except.ok solver_strategy
    else Except.error "Undefined synthesis option."
  let ctrl ← strategy2mealy strategy specs
  let ctrl := if rm_deadends then mealyRemoveDeadends ctrl else ctrl
  Except.ok (some ctrl)

/-- `synth.is_realizable`: dispatch on the solver option and return the
external solver's boolean answer. -/
def is_realizable (option : String) (solver_answer : Bool) :
    Except String Bool :=
  if option = "gr1c" ∨ option = "jtlv" then Except.ok solver_answer
  else Except.error "Undefined synthesis option."

/-- A specification whose initial condition is the literal `False`: the
compiled predicate rejects every valuation, so the solver reports the
spec unrealizable (returns `None` / `False`). -/
def specFalse : GRSpecM :=
  { env_vars := [("x", VarDom.boolean)],
    sys_vars := [("y", VarDom.boolean)],
    isinit := fun _ => false }

/-- C1 (code bug). When the solver returns `None` (unrealizable spec,
e.g. an initial condition that is literally `False`), `synthesize`
raises the exception from `strategy2mealy` instead of returning `None`:
the conversion is called unconditionally and `if not A:` raises on
`None`.  `is_realizable` does return `False` without an exception. -/
theorem synthesize_none_raises :
    synthesize "gr1c" none specFalse =
      Except.error "Empty graph returned as synthesized strategy !" ∧
    synthesize "gr1c" (some { nodes := [], edges := [] }) specFalse =
      Except.error "Empty graph returned as synthesized strategy !" ∧
    is_realizable "gr1c" false = Except.ok false :=
  ⟨rfl, rfl, rfl⟩

end Tulip
